import Mathlib

/-!
Verification of the matching core of `clobex-engine` (`src/main.rs`).

The Rust source is shallowly embedded: `U256` values are modelled as `Nat`
(all arithmetic performed by the source stays inside the 256-bit range under
the book invariants assumed by the relevant theorems, so plain `Nat`
arithmetic is faithful), `BTreeMap<U256, VecDeque<Order>>` as an association
list ordered the way the map iterates (ascending keys), and `VecDeque<Order>`
as `List Order`.  The stateful methods `add_order` and `take_bid_order`
(which take `&mut self`) become functions returning the updated book next to
the value the Rust function returns.
-/

/-- `U256::MAX`. -/
def U256MAX : Nat := 2 ^ 256 - 1

inductive Side where
  | Bid
  | Ask
deriving DecidableEq

structure Order where
  owner : String
  nonce : Nat
  quantity : Nat
  filled_quantity : Nat
  limit_price : Nat
  stop_price : Nat
  expire_timestamp : Nat
  side : Side
  only_full_fill : Bool
deriving DecidableEq

inductive OrderType where
  | Market
  | Limit
  | Stop
  | StopLimit
deriving DecidableEq

/-- `Order::order_type` (src/main.rs:33-54): the match arms are tried in
source order, each guard translated literally. -/
def Order.order_type (o : Order) : Option OrderType :=
  match o.side with
  | Side.Bid =>
    if o.limit_price = U256MAX ∧ o.stop_price = 0 then some OrderType.Market
    else if o.limit_price < U256MAX ∧ o.stop_price = 0 then some OrderType.Limit
    else if o.limit_price = U256MAX ∧ 0 < o.stop_price then some OrderType.Stop
    else if o.limit_price < U256MAX ∧ 0 < o.stop_price then some OrderType.StopLimit
    else none
  | Side.Ask =>
    if o.limit_price = 0 ∧ o.stop_price = U256MAX then some OrderType.Market
    else if 0 < o.limit_price ∧ o.stop_price = U256MAX then some OrderType.Limit
    else if o.limit_price = 0 ∧ o.stop_price < U256MAX then some OrderType.Stop
    else if 0 < o.limit_price ∧ o.stop_price < U256MAX then some OrderType.StopLimit
    else none

/-- A `BTreeMap<U256, VecDeque<Order>>`, modelled as the list of its entries
in iteration (ascending-key) order. -/
abbrev PriceMap := List (Nat × List Order)

structure OrderBook where
  bids : PriceMap
  asks : PriceMap
  stop_bids : PriceMap
  stop_asks : PriceMap
  market_bids : List Order
  market_asks : List Order
  last_price_level : Nat
deriving DecidableEq

/-- `OrderBook::from_initial_price` (src/main.rs:68-78). -/
def OrderBook.from_initial_price (initial_price : Nat) : OrderBook :=
  ⟨[], [], [], [], [], [], initial_price⟩

/-- `map.entry(k).or_default().push_back(o)` on the sorted entry list:
append `o` to the queue at key `k`, creating the entry if absent. -/
def entryPush (m : PriceMap) (k : Nat) (o : Order) : PriceMap :=
  match m with
  | [] => [(k, [o])]
  | (p, q) :: rest =>
    if k < p then (k, [o]) :: (p, q) :: rest
    else if k = p then (p, q ++ [o]) :: rest
    else (p, q) :: entryPush rest k o

/-- `OrderBook::add_order` (src/main.rs:80-115).  Returns the updated book
together with the `Result<()>`; the `bail!` happens before any container is
touched, so the error branch returns the book unchanged.  Note that the
Stop/StopLimit arm keys the stop maps by `order.limit_price`, exactly as the
source does. -/
def OrderBook.add_order (b : OrderBook) (o : Order) : OrderBook × Except String Unit :=
  match o.order_type with
  | none => (b, Except.error "Invalid order type")
  | some OrderType.Market =>
    match o.side with
    | Side.Bid => ({ b with market_bids := b.market_bids ++ [o] }, Except.ok ())
    | Side.Ask => ({ b with market_asks := b.market_asks ++ [o] }, Except.ok ())
  | some OrderType.Limit =>
    match o.side with
    | Side.Bid => ({ b with bids := entryPush b.bids o.limit_price o }, Except.ok ())
    | Side.Ask => ({ b with asks := entryPush b.asks o.limit_price o }, Except.ok ())
  | some OrderType.Stop | some OrderType.StopLimit =>
    match o.side with
    | Side.Bid => ({ b with stop_bids := entryPush b.stop_bids o.limit_price o }, Except.ok ())
    | Side.Ask => ({ b with stop_asks := entryPush b.stop_asks o.limit_price o }, Except.ok ())

/-- `order.quantity - order.filled_quantity`, the availability the sweep
computes for makers and the taker. -/
def availQty (o : Order) : Nat := o.quantity - o.filled_quantity

/-- Result of the inner per-level loop of `take_bid_order`: the taker's
remaining quantity, the queue as it remains in the book, the snapshots pushed
to `maker_orders`, and whether the loop hit `None` at `ask_cursor == 0`. -/
structure SweepQueueResult where
  need : Nat
  kept : List Order
  fills : List Order
  foundEmpty : Bool
deriving DecidableEq

/-- Result of the outer loop of `take_bid_order` over all price levels:
remaining taker quantity, the level list after the sweep, all maker
snapshots in push order, and the keys collected in `empty_price_levels`. -/
structure SweepLevelsResult where
  need : Nat
  levels : PriceMap
  fills : List Order
  marks : List Nat
deriving DecidableEq

/-- The inner `loop` of `take_bid_order` over one ask price level
(src/main.rs:131-161).  Input: the taker's remaining quantity and the level's
queue.  Output `(need', kept, fills, foundEmpty)`: the taker's remaining
quantity after the level, the queue as it remains in the book, the maker
snapshots pushed to `maker_orders` (in push order), and whether the loop hit
`None` at `ask_cursor == 0` (the condition under which the source marks the
level for deletion).  The `ask_cursor` walk is modelled structurally: a
skipped all-or-nothing maker is kept in front of whatever the rest of the
walk keeps, a removal recurses into the rest of the queue at the same
position, and the two `break`s on `taker_available_quantity == 0` stop the
recursion with the unvisited suffix kept untouched. -/
def sweepQueue (need : Nat) : List Order → SweepQueueResult
  | [] => ⟨need, [], [], true⟩
  | a :: rest =>
    let avail := availQty a
    if need < avail then
      if a.only_full_fill then
        let r := sweepQueue need rest
        ⟨r.need, a :: r.kept, r.fills, false⟩
      else
        let a' := { a with filled_quantity := a.filled_quantity + need }
        ⟨0, a' :: rest, [a'], false⟩
    else
      if need - avail = 0 then ⟨0, rest, [a], false⟩
      else
        let r := sweepQueue (need - avail) rest
        ⟨r.need, r.kept, a :: r.fills, r.foundEmpty⟩

/-- The outer `for` loop of `take_bid_order` over the ask price levels in
ascending order (src/main.rs:129-165).  Output
`(need', levels, fills, marks)`: remaining taker quantity, the level list
after the sweep, all maker snapshots in push order, and the keys collected in
`empty_price_levels`.  The loop body runs for the first level even when the
need is already zero, and the `break` on zero need is checked only after a
level finishes, exactly as in the source. -/
def sweepLevels (need : Nat) : PriceMap → SweepLevelsResult
  | [] => ⟨need, [], [], []⟩
  | (p, q) :: rest =>
    let r := sweepQueue need q
    let marks : List Nat := if r.foundEmpty then [p] else []
    if r.need = 0 then ⟨0, (p, r.kept) :: rest, r.fills, marks⟩
    else
      let s := sweepLevels r.need rest
      ⟨s.need, (p, r.kept) :: s.levels, r.fills ++ s.fills, marks ++ s.marks⟩

/-- The deferred deletion loop (src/main.rs:167-169): remove every key in
`empty_price_levels` from the map. -/
def pruneEmpty (m : PriceMap) (marks : List Nat) : PriceMap :=
  m.filter (fun pq => !(marks.contains pq.1))

/-- `OrderBook::take_bid_order` (src/main.rs:117-186), the bid-side matching
step.  Returns the updated book and the `Option<(Order, Vec<Order>)>` the
Rust function returns.  The in-place mutation of the taker through the
`get_mut` borrow becomes a `List.set` at the cursor, and the recursive retry
on the all-or-nothing path calls the function again at `cursor + 1` on the
book with the swept asks. -/
def OrderBook.take_bid_order (b : OrderBook) (cursor : Nat) :
    OrderBook × Option (Order × List Order) :=
  match h : b.market_bids.get? cursor with
  | none => (b, none)
  | some taker =>
    let need := taker.quantity - taker.filled_quantity
    let r := sweepLevels need b.asks
    let b' : OrderBook := { b with asks := pruneEmpty r.levels r.marks }
    if 0 < r.need then
      if taker.only_full_fill then b'.take_bid_order (cursor + 1)
      else
        let taker' := { taker with filled_quantity := taker.quantity - r.need }
        let b'' : OrderBook := { b' with market_bids := b'.market_bids.set cursor taker' }
        if 0 < r.fills.length then (b'', some (taker', r.fills)) else (b'', none)
    else
      if 0 < r.fills.length then
        ({ b' with market_bids := b'.market_bids.eraseIdx cursor }, some (taker, r.fills))
      else (b', none)
termination_by b.market_bids.length - cursor
decreasing_by
  have hlt : cursor < b.market_bids.length := by
    cases hc : Nat.decLt cursor b.market_bids.length with
    | isTrue hp => exact hp
    | isFalse hp =>
      exfalso
      have : b.market_bids.get? cursor = none := List.get?_eq_none.mpr (Nat.le_of_not_lt hp)
      rw [this] at h
      exact Option.noConfusion h
  omega

/-- Fuel-indexed version of `take_bid_order`: `none` means the fuel ran out
before the retry recursion finished. -/
def takeBidOrderFuel : Nat → OrderBook → Nat → Option (OrderBook × Option (Order × List Order))
  | 0, _, _ => none
  | fuel + 1, b, cursor =>
    match b.market_bids.get? cursor with
    | none => some (b, none)
    | some taker =>
      let need := taker.quantity - taker.filled_quantity
      let r := sweepLevels need b.asks
      let b' : OrderBook := { b with asks := pruneEmpty r.levels r.marks }
      if 0 < r.need then
        if taker.only_full_fill then takeBidOrderFuel fuel b' (cursor + 1)
        else
          let taker' := { taker with filled_quantity := taker.quantity - r.need }
          let b'' : OrderBook := { b' with market_bids := b'.market_bids.set cursor taker' }
          if 0 < r.fills.length then some (b'', some (taker', r.fills)) else some (b'', none)
      else
        if 0 < r.fills.length then
          some ({ b' with market_bids := b'.market_bids.eraseIdx cursor }, some (taker, r.fills))
        else some (b', none)

/-! ### Unfolding and computation helpers for the recursive matching step -/

theorem take_bid_order_of_none {b : OrderBook} {cursor : Nat}
    (hg : b.market_bids.get? cursor = none) :
    b.take_bid_order cursor = (b, none) := by
  rw [OrderBook.take_bid_order]
  split
  · rfl
  · rename_i taker heq
    rw [hg] at heq
    exact Option.noConfusion heq

theorem take_bid_order_of_some {b : OrderBook} {cursor : Nat} {taker : Order}
    (hg : b.market_bids.get? cursor = some taker) :
    b.take_bid_order cursor =
      (let r := sweepLevels (taker.quantity - taker.filled_quantity) b.asks
       let b' : OrderBook := { b with asks := pruneEmpty r.levels r.marks }
       if 0 < r.need then
         if taker.only_full_fill then b'.take_bid_order (cursor + 1)
         else
           let taker' := { taker with filled_quantity := taker.quantity - r.need }
           let b'' : OrderBook := { b' with market_bids := b'.market_bids.set cursor taker' }
           if 0 < r.fills.length then (b'', some (taker', r.fills)) else (b'', none)
       else
         if 0 < r.fills.length then
           ({ b' with market_bids := b'.market_bids.eraseIdx cursor }, some (taker, r.fills))
         else (b', none)) := by
  rw [OrderBook.take_bid_order]
  split
  · rename_i heq
    rw [hg] at heq
    exact Option.noConfusion heq
  · rename_i taker2 heq
    rw [hg] at heq
    cases heq
    rfl

theorem cursor_lt_of_get?_eq_some {l : List Order} {i : Nat} {o : Order}
    (h : l.get? i = some o) : i < l.length := by
  rcases List.get?_eq_some.mp h with ⟨hl, _⟩
  exact hl

/-- The fuel-indexed recursion computes `take_bid_order` whenever the fuel
exceeds the number of market-queue positions left at the cursor. -/
theorem takeBidOrderFuel_spec : ∀ (fuel : Nat) (b : OrderBook) (cursor : Nat),
    b.market_bids.length - cursor < fuel →
    takeBidOrderFuel fuel b cursor = some (b.take_bid_order cursor) := by
  intro fuel
  induction fuel with
  | zero => intro b cursor h; omega
  | succ n ih =>
    intro b cursor h
    simp only [takeBidOrderFuel]
    cases hg : b.market_bids.get? cursor with
    | none => rw [take_bid_order_of_none hg]
    | some taker =>
      have hlt : cursor < b.market_bids.length := cursor_lt_of_get?_eq_some hg
      rw [take_bid_order_of_some hg]
      simp only []
      split
      · split
        · exact ih _ _ (by show b.market_bids.length - (cursor + 1) < n; omega)
        · split <;> rfl
      · split <;> rfl

/-! ### Quantity bookkeeping for the sweep -/

def sumAvailQ (q : List Order) : Nat := (q.map availQty).sum

def sumAvailLevels (m : PriceMap) : Nat := (m.map (fun pq => sumAvailQ pq.2)).sum

theorem sweepQueue_need_le (need : Nat) (q : List Order) :
    (sweepQueue need q).need ≤ need := by
  induction q generalizing need with
  | nil => simp [sweepQueue]
  | cons a rest ih =>
    simp only [sweepQueue]
    split
    · split
      · exact ih need
      · simp
    · split
      · simp
      · exact le_trans (ih (need - availQty a)) (Nat.sub_le _ _)

theorem sweepQueue_conserve (need : Nat) (q : List Order)
    (hq : ∀ o ∈ q, o.filled_quantity ≤ o.quantity) :
    sumAvailQ q + (sweepQueue need q).need = sumAvailQ (sweepQueue need q).kept + need := by
  induction q generalizing need with
  | nil => simp [sweepQueue]
  | cons a rest ih =>
    have ha := hq a (List.mem_cons_self a rest)
    have hrest : ∀ o ∈ rest, o.filled_quantity ≤ o.quantity :=
      fun o ho => hq o (List.mem_cons_of_mem a ho)
    simp only [sweepQueue]
    split
    · rename_i hlt
      split
      · have := ih need hrest
        simp only [sumAvailQ, List.map_cons, List.sum_cons] at *
        omega
      · simp only [sumAvailQ, List.map_cons, List.sum_cons, availQty] at *
        omega
    · rename_i hge
      split
      · rename_i hz
        simp only [sumAvailQ, List.map_cons, List.sum_cons, availQty] at *
        omega
      · rename_i hz
        have := ih (need - availQty a) hrest
        simp only [sumAvailQ, List.map_cons, List.sum_cons, availQty] at *
        omega

theorem sweepQueue_foundEmpty_kept (need : Nat) (q : List Order)
    (h : (sweepQueue need q).foundEmpty = true) : (sweepQueue need q).kept = [] := by
  induction q generalizing need with
  | nil => simp [sweepQueue]
  | cons a rest ih =>
    simp only [sweepQueue] at *
    revert h
    split
    · split
      · intro h; exact absurd h (by simp)
      · intro h; exact absurd h (by simp)
    · split
      · intro h; exact absurd h (by simp)
      · exact fun h => ih _ h

theorem sweepQueue_fills_nil (need : Nat) (q : List Order)
    (h : (sweepQueue need q).fills = []) :
    (sweepQueue need q).kept = q ∧ (sweepQueue need q).need = need ∧
      ((sweepQueue need q).foundEmpty = true ↔ q = []) := by
  induction q generalizing need with
  | nil => simp [sweepQueue]
  | cons a rest ih =>
    simp only [sweepQueue] at *
    revert h
    split
    · split
      · intro h
        rcases ih need h with ⟨h1, h2, h3⟩
        refine ⟨by rw [h1], h2, by simp⟩
      · intro h; exact absurd h (by simp)
    · split
      · intro h; exact absurd h (by simp)
      · intro h; exact absurd h (by simp)

theorem sweepLevels_keys (need : Nat) (m : PriceMap) :
    (sweepLevels need m).levels.map Prod.fst = m.map Prod.fst := by
  induction m generalizing need with
  | nil => simp [sweepLevels]
  | cons pq rest ih =>
    obtain ⟨p, q⟩ := pq
    simp only [sweepLevels]
    split
    · simp
    · simp [ih]

theorem sweepLevels_marks_sub (need : Nat) (m : PriceMap) :
    ∀ p ∈ (sweepLevels need m).marks, p ∈ m.map Prod.fst := by
  induction m generalizing need with
  | nil => simp [sweepLevels]
  | cons pq rest ih =>
    obtain ⟨p0, q⟩ := pq
    intro p hp
    simp only [sweepLevels] at hp
    split at hp
    · dsimp only at hp
      simp only [List.map_cons, List.mem_cons]
      split at hp
      · simp at hp; exact Or.inl hp
      · simp at hp
    · dsimp only at hp
      simp only [List.map_cons, List.mem_cons]
      rcases List.mem_append.mp hp with h1 | h2
      · split at h1
        · simp at h1; exact Or.inl h1
        · simp at h1
      · exact Or.inr (ih _ _ h2)

theorem sweepLevels_need_le (need : Nat) (m : PriceMap) :
    (sweepLevels need m).need ≤ need := by
  induction m generalizing need with
  | nil => simp [sweepLevels]
  | cons pq rest ih =>
    obtain ⟨p, q⟩ := pq
    simp only [sweepLevels]
    split
    · simp
    · exact le_trans (ih _) (sweepQueue_need_le need q)

theorem pruneEmpty_nil_marks (m : PriceMap) : pruneEmpty m [] = m := by
  simp [pruneEmpty]

theorem pruneEmpty_cons_of_mem {p : Nat} {x : List Order} {tl : PriceMap} {marks : List Nat}
    (h : p ∈ marks) : pruneEmpty ((p, x) :: tl) marks = pruneEmpty tl marks := by
  simp [pruneEmpty, List.filter_cons, h]

theorem pruneEmpty_cons_of_not_mem {p : Nat} {x : List Order} {tl : PriceMap} {marks : List Nat}
    (h : p ∉ marks) : pruneEmpty ((p, x) :: tl) marks = (p, x) :: pruneEmpty tl marks := by
  simp [pruneEmpty, List.filter_cons, h]

theorem pruneEmpty_of_disjoint {m : PriceMap} {marks : List Nat}
    (h : ∀ pq ∈ m, pq.1 ∉ marks) : pruneEmpty m marks = m := by
  unfold pruneEmpty
  rw [List.filter_eq_self]
  intro pq hpq
  simpa using h pq hpq

theorem pruneEmpty_append_left {m : PriceMap} {marks1 marks2 : List Nat}
    (h : ∀ pq ∈ m, pq.1 ∉ marks1) :
    pruneEmpty m (marks1 ++ marks2) = pruneEmpty m marks2 := by
  unfold pruneEmpty
  apply List.filter_congr
  intro pq hpq
  have := h pq hpq
  simp [this]

theorem sweep_prune_conserve (need : Nat) (m : PriceMap)
    (hkeys : (m.map Prod.fst).Pairwise (· < ·))
    (hinv : ∀ pq ∈ m, ∀ o ∈ pq.2, o.filled_quantity ≤ o.quantity) :
    sumAvailLevels (pruneEmpty (sweepLevels need m).levels (sweepLevels need m).marks) + need =
      sumAvailLevels m + (sweepLevels need m).need := by
  induction m generalizing need with
  | nil => simp [sweepLevels, pruneEmpty, sumAvailLevels]
  | cons pq rest ih =>
    obtain ⟨p, q⟩ := pq
    have hq : ∀ o ∈ q, o.filled_quantity ≤ o.quantity := hinv (p, q) (List.mem_cons_self _ _)
    have hrest : ∀ pq ∈ rest, ∀ o ∈ pq.2, o.filled_quantity ≤ o.quantity :=
      fun pq hpq => hinv pq (List.mem_cons_of_mem _ hpq)
    have hkeys' : (rest.map Prod.fst).Pairwise (· < ·) := by
      simp only [List.map_cons] at hkeys
      exact (List.pairwise_cons.mp hkeys).2
    have hnotin : ∀ pq ∈ rest, pq.1 ≠ p := by
      intro pq hpq
      simp only [List.map_cons] at hkeys
      have := (List.pairwise_cons.mp hkeys).1 pq.1 (List.mem_map_of_mem Prod.fst hpq)
      omega
    have hcons := sweepQueue_conserve need q hq
    simp only [sweepLevels]
    split
    · rename_i hz
      dsimp only
      by_cases hfe : (sweepQueue need q).foundEmpty = true
      · have hke : (sweepQueue need q).kept = [] := sweepQueue_foundEmpty_kept _ _ hfe
        rw [hfe, if_pos rfl, hke]
        rw [pruneEmpty_cons_of_mem (List.mem_singleton.mpr rfl)]
        rw [pruneEmpty_of_disjoint (fun pq2 hpq2 => by simpa using hnotin pq2 hpq2)]
        rw [hke] at hcons
        have hzero : sumAvailQ ([] : List Order) = 0 := rfl
        rw [hzero] at hcons
        simp only [sumAvailLevels, List.map_cons, List.sum_cons]
        omega
      · simp only [Bool.not_eq_true] at hfe
        rw [hfe]
        simp only [Bool.false_eq_true, if_false]
        rw [pruneEmpty_nil_marks]
        simp only [sumAvailLevels, List.map_cons, List.sum_cons]
        omega
    · rename_i hz
      dsimp only
      have hlvlne : ∀ pq2 ∈ (sweepLevels (sweepQueue need q).need rest).levels, pq2.1 ≠ p := by
        intro pq2 hpq2
        have hm : pq2.1 ∈ (sweepLevels (sweepQueue need q).need rest).levels.map Prod.fst :=
          List.mem_map_of_mem Prod.fst hpq2
        rw [sweepLevels_keys] at hm
        rcases List.mem_map.mp hm with ⟨pq3, hpq3, heq3⟩
        rw [← heq3]
        exact hnotin pq3 hpq3
      have hmarks_not_p : p ∉ (sweepLevels (sweepQueue need q).need rest).marks := by
        intro hp
        have hm := sweepLevels_marks_sub _ rest p hp
        rcases List.mem_map.mp hm with ⟨pq3, hpq3, heq3⟩
        exact hnotin pq3 hpq3 heq3
      have ihr := ih (sweepQueue need q).need hkeys' hrest
      by_cases hfe : (sweepQueue need q).foundEmpty = true
      · have hke : (sweepQueue need q).kept = [] := sweepQueue_foundEmpty_kept _ _ hfe
        rw [hfe, if_pos rfl, hke]
        rw [pruneEmpty_cons_of_mem (by simp)]
        rw [pruneEmpty_append_left (fun pq2 hpq2 => by simpa using hlvlne pq2 hpq2)]
        rw [hke] at hcons
        have hzero : sumAvailQ ([] : List Order) = 0 := rfl
        rw [hzero] at hcons
        simp only [sumAvailLevels, List.map_cons, List.sum_cons] at ihr ⊢
        omega
      · simp only [Bool.not_eq_true] at hfe
        rw [hfe]
        simp only [Bool.false_eq_true, if_false, List.nil_append]
        rw [pruneEmpty_cons_of_not_mem hmarks_not_p]
        simp only [sumAvailLevels, List.map_cons, List.sum_cons] at ihr ⊢
        omega

theorem sweepLevels_fills_nil (need : Nat) (m : PriceMap)
    (h : (sweepLevels need m).fills = []) :
    (sweepLevels need m).need = need ∧ (sweepLevels need m).levels = m := by
  induction m generalizing need with
  | nil => simp [sweepLevels]
  | cons pq rest ih =>
    obtain ⟨p, q⟩ := pq
    simp only [sweepLevels] at *
    revert h
    split
    · rename_i hz
      intro h
      dsimp only at h ⊢
      rcases sweepQueue_fills_nil need q h with ⟨h1, h2, _⟩
      exact ⟨by omega, by rw [h1]⟩
    · rename_i hz
      intro h
      dsimp only at h ⊢
      rcases List.append_eq_nil.mp h with ⟨hq, hs⟩
      rcases sweepQueue_fills_nil need q hq with ⟨h1, h2, _⟩
      rcases ih _ hs with ⟨ih1, ih2⟩
      exact ⟨by omega, by rw [h1, ih2]⟩

/-! ### Membership through the sweep (all-or-nothing makers are never mutated) -/

/-- All orders held in a price map, in iteration order. -/
def ordersOfMap (m : PriceMap) : List Order := (m.map Prod.snd).flatten

theorem mem_ordersOfMap {m : PriceMap} {o : Order} :
    o ∈ ordersOfMap m ↔ ∃ pq ∈ m, o ∈ pq.2 := by
  simp only [ordersOfMap, List.mem_flatten, List.mem_map]
  constructor
  · rintro ⟨l, ⟨pq, hpq, rfl⟩, ho⟩
    exact ⟨pq, hpq, ho⟩
  · rintro ⟨pq, hpq, ho⟩
    exact ⟨pq.2, ⟨pq, hpq, rfl⟩, ho⟩

theorem sweepQueue_kept_aon_mem (need : Nat) (q : List Order) :
    ∀ o ∈ (sweepQueue need q).kept, o.only_full_fill = true → o ∈ q := by
  induction q generalizing need with
  | nil => simp [sweepQueue]
  | cons a rest ih =>
    intro o ho haon
    simp only [sweepQueue] at ho
    revert ho
    split
    · rename_i hlt
      split
      · rename_i ha
        intro ho
        rcases List.mem_cons.mp ho with h1 | h2
        · exact h1 ▸ List.mem_cons_self _ _
        · exact List.mem_cons_of_mem _ (ih need o h2 haon)
      · rename_i ha
        intro ho
        rcases List.mem_cons.mp ho with h1 | h2
        · exfalso
          rw [h1] at haon
          simp only [Bool.not_eq_true] at ha
          simp at haon
          rw [haon] at ha
          exact Bool.noConfusion ha
        · exact List.mem_cons_of_mem _ h2
    · split
      · intro ho
        exact List.mem_cons_of_mem _ ho
      · intro ho
        exact List.mem_cons_of_mem _ (ih _ o ho haon)

theorem sweepLevels_levels_aon_mem (need : Nat) (m : PriceMap) :
    ∀ o ∈ ordersOfMap (sweepLevels need m).levels, o.only_full_fill = true →
      o ∈ ordersOfMap m := by
  induction m generalizing need with
  | nil => intro o ho _; simpa [sweepLevels] using ho
  | cons pq rest ih =>
    obtain ⟨p, q⟩ := pq
    intro o ho haon
    simp only [sweepLevels] at ho
    rw [mem_ordersOfMap]
    revert ho
    split
    · intro ho
      dsimp only at ho
      rcases mem_ordersOfMap.mp ho with ⟨pq2, hpq2, ho2⟩
      rcases List.mem_cons.mp hpq2 with h1 | h2
      · subst h1
        exact ⟨(p, q), List.mem_cons_self _ _, sweepQueue_kept_aon_mem need q o ho2 haon⟩
      · exact ⟨pq2, List.mem_cons_of_mem _ h2, ho2⟩
    · intro ho
      dsimp only at ho
      rcases mem_ordersOfMap.mp ho with ⟨pq2, hpq2, ho2⟩
      rcases List.mem_cons.mp hpq2 with h1 | h2
      · subst h1
        exact ⟨(p, q), List.mem_cons_self _ _, sweepQueue_kept_aon_mem need q o ho2 haon⟩
      · rcases mem_ordersOfMap.mp (ih _ o (mem_ordersOfMap.mpr ⟨pq2, h2, ho2⟩) haon)
          with ⟨pq3, hpq3, ho3⟩
        exact ⟨pq3, List.mem_cons_of_mem _ hpq3, ho3⟩

theorem pruneEmpty_subset {m : PriceMap} {marks : List Nat} :
    ∀ pq ∈ pruneEmpty m marks, pq ∈ m := by
  intro pq hpq
  exact List.mem_of_mem_filter hpq

theorem sweepQueue_kept_inv (need : Nat) (q : List Order)
    (hq : ∀ o ∈ q, o.filled_quantity ≤ o.quantity) :
    ∀ o ∈ (sweepQueue need q).kept, o.filled_quantity ≤ o.quantity := by
  induction q generalizing need with
  | nil => simp [sweepQueue]
  | cons a rest ih =>
    have ha := hq a (List.mem_cons_self a rest)
    have hrest : ∀ o ∈ rest, o.filled_quantity ≤ o.quantity :=
      fun o ho => hq o (List.mem_cons_of_mem a ho)
    intro o ho
    simp only [sweepQueue] at ho
    revert ho
    split
    · rename_i hlt
      split
      · intro ho
        rcases List.mem_cons.mp ho with h1 | h2
        · exact h1 ▸ ha
        · exact ih need hrest o h2
      · intro ho
        rcases List.mem_cons.mp ho with h1 | h2
        · subst h1
          simp only [availQty] at hlt
          simp only []
          omega
        · exact hrest o h2
    · split
      · intro ho
        exact hrest o ho
      · intro ho
        exact ih _ hrest o ho

theorem sweepLevels_levels_inv (need : Nat) (m : PriceMap)
    (hm : ∀ pq ∈ m, ∀ o ∈ pq.2, o.filled_quantity ≤ o.quantity) :
    ∀ pq ∈ (sweepLevels need m).levels, ∀ o ∈ pq.2, o.filled_quantity ≤ o.quantity := by
  induction m generalizing need with
  | nil => simp [sweepLevels]
  | cons pq0 rest ih =>
    obtain ⟨p, q⟩ := pq0
    have hq : ∀ o ∈ q, o.filled_quantity ≤ o.quantity := hm (p, q) (List.mem_cons_self _ _)
    have hrest : ∀ pq ∈ rest, ∀ o ∈ pq.2, o.filled_quantity ≤ o.quantity :=
      fun pq hpq => hm pq (List.mem_cons_of_mem _ hpq)
    intro pq hpq
    simp only [sweepLevels] at hpq
    revert hpq
    split
    · intro hpq
      dsimp only at hpq
      rcases List.mem_cons.mp hpq with h1 | h2
      · subst h1
        exact sweepQueue_kept_inv need q hq
      · exact hrest pq h2
    · intro hpq
      dsimp only at hpq
      rcases List.mem_cons.mp hpq with h1 | h2
      · subst h1
        exact sweepQueue_kept_inv need q hq
      · exact ih _ hrest pq h2

/-! ### Properties of the full matching step, by induction on fuel -/

theorem takeBidOrderFuel_frame : ∀ (fuel : Nat) (b : OrderBook) (cursor : Nat)
    (b' : OrderBook) (res : Option (Order × List Order)),
    takeBidOrderFuel fuel b cursor = some (b', res) →
    b'.bids = b.bids ∧ b'.stop_bids = b.stop_bids ∧ b'.stop_asks = b.stop_asks ∧
      b'.market_asks = b.market_asks ∧ b'.last_price_level = b.last_price_level := by
  intro fuel
  induction fuel with
  | zero => intro b cursor b' res h; exact Option.noConfusion h
  | succ n ih =>
    intro b cursor b' res h
    simp only [takeBidOrderFuel] at h
    cases hg : b.market_bids.get? cursor with
    | none =>
      rw [hg] at h
      simp only [] at h
      rcases Prod.mk.injEq .. ▸ Option.some.inj h with ⟨h1, h2⟩
      subst h1
      exact ⟨rfl, rfl, rfl, rfl, rfl⟩
    | some taker =>
      rw [hg] at h
      simp only [] at h
      split at h
      · split at h
        · rcases ih _ _ _ _ h with ⟨f1, f2, f3, f4, f5⟩
          exact ⟨f1, f2, f3, f4, f5⟩
        · split at h <;>
          · rcases Prod.mk.injEq .. ▸ Option.some.inj h with ⟨h1, h2⟩
            subst h1
            exact ⟨rfl, rfl, rfl, rfl, rfl⟩
      · split at h <;>
        · rcases Prod.mk.injEq .. ▸ Option.some.inj h with ⟨h1, h2⟩
          subst h1
          exact ⟨rfl, rfl, rfl, rfl, rfl⟩

theorem ordersOfMap_pruneEmpty_sub {m : PriceMap} {marks : List Nat} :
    ∀ o ∈ ordersOfMap (pruneEmpty m marks), o ∈ ordersOfMap m := by
  intro o ho
  rcases mem_ordersOfMap.mp ho with ⟨pq, hpq, ho2⟩
  exact mem_ordersOfMap.mpr ⟨pq, pruneEmpty_subset pq hpq, ho2⟩

theorem takeBidOrderFuel_asks_aon : ∀ (fuel : Nat) (b : OrderBook) (cursor : Nat)
    (b' : OrderBook) (res : Option (Order × List Order)),
    takeBidOrderFuel fuel b cursor = some (b', res) →
    ∀ o, o.only_full_fill = true → o ∈ ordersOfMap b'.asks → o ∈ ordersOfMap b.asks := by
  intro fuel
  induction fuel with
  | zero => intro b cursor b' res h; exact Option.noConfusion h
  | succ n ih =>
    intro b cursor b' res h o haon ho
    simp only [takeBidOrderFuel] at h
    cases hg : b.market_bids.get? cursor with
    | none =>
      rw [hg] at h
      simp only [] at h
      rcases Prod.mk.injEq .. ▸ Option.some.inj h with ⟨h1, h2⟩
      subst h1
      exact ho
    | some taker =>
      rw [hg] at h
      simp only [] at h
      have step : ∀ o2, o2.only_full_fill = true →
          o2 ∈ ordersOfMap (pruneEmpty
            (sweepLevels (taker.quantity - taker.filled_quantity) b.asks).levels
            (sweepLevels (taker.quantity - taker.filled_quantity) b.asks).marks) →
          o2 ∈ ordersOfMap b.asks := by
        intro o2 h2 hm
        exact sweepLevels_levels_aon_mem _ _ o2 (ordersOfMap_pruneEmpty_sub o2 hm) h2
      split at h
      · split at h
        · exact step o haon (ih _ _ _ _ h o haon ho)
        · split at h <;>
          · rcases Prod.mk.injEq .. ▸ Option.some.inj h with ⟨h1, h2⟩
            subst h1
            exact step o haon ho
      · split at h <;>
        · rcases Prod.mk.injEq .. ▸ Option.some.inj h with ⟨h1, h2⟩
          subst h1
          exact step o haon ho

/-- The `0 ≤ filled_quantity ≤ quantity` book invariant (the lower bound is
inherent to the unsigned value domain), container by container. -/
def bookFillLe (b : OrderBook) : Prop :=
  (∀ o ∈ ordersOfMap b.bids, o.filled_quantity ≤ o.quantity) ∧
  (∀ o ∈ ordersOfMap b.asks, o.filled_quantity ≤ o.quantity) ∧
  (∀ o ∈ ordersOfMap b.stop_bids, o.filled_quantity ≤ o.quantity) ∧
  (∀ o ∈ ordersOfMap b.stop_asks, o.filled_quantity ≤ o.quantity) ∧
  (∀ o ∈ b.market_bids, o.filled_quantity ≤ o.quantity) ∧
  (∀ o ∈ b.market_asks, o.filled_quantity ≤ o.quantity)

instance (b : OrderBook) : Decidable (bookFillLe b) := by
  unfold bookFillLe
  infer_instance

theorem takeBidOrderFuel_inv : ∀ (fuel : Nat) (b : OrderBook) (cursor : Nat)
    (b' : OrderBook) (res : Option (Order × List Order)),
    takeBidOrderFuel fuel b cursor = some (b', res) →
    bookFillLe b → bookFillLe b' := by
  intro fuel
  induction fuel with
  | zero => intro b cursor b' res h; exact Option.noConfusion h
  | succ n ih =>
    intro b cursor b' res h hinv
    obtain ⟨i1, i2, i3, i4, i5, i6⟩ := hinv
    simp only [takeBidOrderFuel] at h
    cases hg : b.market_bids.get? cursor with
    | none =>
      rw [hg] at h
      simp only [] at h
      rcases Prod.mk.injEq .. ▸ Option.some.inj h with ⟨h1, h2⟩
      subst h1
      exact ⟨i1, i2, i3, i4, i5, i6⟩
    | some taker =>
      rw [hg] at h
      simp only [] at h
      have hasks : ∀ o ∈ ordersOfMap (pruneEmpty
          (sweepLevels (taker.quantity - taker.filled_quantity) b.asks).levels
          (sweepLevels (taker.quantity - taker.filled_quantity) b.asks).marks),
          o.filled_quantity ≤ o.quantity := by
        intro o ho
        rcases mem_ordersOfMap.mp (ordersOfMap_pruneEmpty_sub o ho) with ⟨pq, hpq, ho2⟩
        exact sweepLevels_levels_inv _ _
          (fun pq2 hpq2 o2 ho3 => i2 o2 (mem_ordersOfMap.mpr ⟨pq2, hpq2, ho3⟩))
          pq hpq o ho2
      split at h
      · split at h
        · exact ih _ _ _ _ h ⟨i1, hasks, i3, i4, i5, i6⟩
        · split at h <;>
          · rcases Prod.mk.injEq .. ▸ Option.some.inj h with ⟨h1, h2⟩
            subst h1
            refine ⟨i1, hasks, i3, i4, ?_, i6⟩
            intro o ho
            rcases List.mem_or_eq_of_mem_set ho with h3 | h3
            · exact i5 o h3
            · subst h3
              exact Nat.sub_le _ _
      · split at h <;>
        · rcases Prod.mk.injEq .. ▸ Option.some.inj h with ⟨h1, h2⟩
          subst h1
          refine ⟨i1, hasks, i3, i4, ?_, i6⟩
          intro o ho
          first
          | exact i5 o (List.mem_of_mem_eraseIdx ho)
          | exact i5 o ho

/-! ### Branch equations for the sweep, and price-time priority -/

theorem sweepQueue_cons_skip {need : Nat} {a : Order} {rest : List Order}
    (hlt : need < availQty a) (ha : a.only_full_fill = true) :
    sweepQueue need (a :: rest) =
      ⟨(sweepQueue need rest).need, a :: (sweepQueue need rest).kept,
        (sweepQueue need rest).fills, false⟩ := by
  simp [sweepQueue, hlt, ha]

theorem sweepQueue_cons_part {need : Nat} {a : Order} {rest : List Order}
    (hlt : need < availQty a) (ha : a.only_full_fill = false) :
    sweepQueue need (a :: rest) =
      ⟨0, { a with filled_quantity := a.filled_quantity + need } :: rest,
        [{ a with filled_quantity := a.filled_quantity + need }], false⟩ := by
  simp [sweepQueue, hlt, ha]

theorem sweepQueue_cons_exact {need : Nat} {a : Order} {rest : List Order}
    (hge : ¬ need < availQty a) (hz : need - availQty a = 0) :
    sweepQueue need (a :: rest) = ⟨0, rest, [a], false⟩ := by
  simp [sweepQueue, hge, hz]

theorem sweepQueue_cons_more {need : Nat} {a : Order} {rest : List Order}
    (hge : ¬ need < availQty a) (hz : ¬ need - availQty a = 0) :
    sweepQueue need (a :: rest) =
      ⟨(sweepQueue (need - availQty a) rest).need, (sweepQueue (need - availQty a) rest).kept,
        a :: (sweepQueue (need - availQty a) rest).fills,
        (sweepQueue (need - availQty a) rest).foundEmpty⟩ := by
  simp [sweepQueue, hge, hz]

theorem sweepLevels_cons_done {need : Nat} {p : Nat} {q : List Order} {rest : PriceMap}
    (hz : (sweepQueue need q).need = 0) :
    sweepLevels need ((p, q) :: rest) =
      ⟨0, (p, (sweepQueue need q).kept) :: rest, (sweepQueue need q).fills,
        if (sweepQueue need q).foundEmpty then [p] else []⟩ := by
  simp [sweepLevels, hz]

theorem sweepLevels_cons_go {need : Nat} {p : Nat} {q : List Order} {rest : PriceMap}
    (hz : ¬ (sweepQueue need q).need = 0) :
    sweepLevels need ((p, q) :: rest) =
      ⟨(sweepLevels (sweepQueue need q).need rest).need,
        (p, (sweepQueue need q).kept) :: (sweepLevels (sweepQueue need q).need rest).levels,
        (sweepQueue need q).fills ++ (sweepLevels (sweepQueue need q).need rest).fills,
        (if (sweepQueue need q).foundEmpty then [p] else []) ++
          (sweepLevels (sweepQueue need q).need rest).marks⟩ := by
  simp [sweepLevels, hz]

/-- If the taker still needs quantity after a level's inner loop finishes,
every maker at that level that is not all-or-nothing was recorded as a fill
(it was fully consumed, since only all-or-nothing makers can be skipped). -/
theorem sweepQueue_residual_fills (need : Nat) (q : List Order)
    (h : 0 < (sweepQueue need q).need) :
    ∀ o ∈ q, o.only_full_fill = false → o ∈ (sweepQueue need q).fills := by
  induction q generalizing need with
  | nil => simp
  | cons a rest ih =>
    intro o ho haon
    by_cases hlt : need < availQty a
    · by_cases ha : a.only_full_fill = true
      · rw [sweepQueue_cons_skip hlt ha] at h ⊢
        rcases List.mem_cons.mp ho with h1 | h2
        · subst h1
          rw [ha] at haon
          exact Bool.noConfusion haon
        · exact ih need h o h2 haon
      · rw [Bool.not_eq_true] at ha
        rw [sweepQueue_cons_part hlt ha] at h
        exact absurd h (by simp)
    · by_cases hz : need - availQty a = 0
      · rw [sweepQueue_cons_exact hlt hz] at h
        exact absurd h (by simp)
      · rw [sweepQueue_cons_more hlt hz] at h ⊢
        rcases List.mem_cons.mp ho with h1 | h2
        · subst h1
          exact List.mem_cons_self _ _
        · exact List.mem_cons_of_mem _ (ih _ h o h2 haon)

/-- Every snapshot recorded from a level's queue carries the `limit_price` of
some maker of that queue (a partial fill changes only `filled_quantity`). -/
theorem sweepQueue_fills_limit (need : Nat) (q : List Order) :
    ∀ f ∈ (sweepQueue need q).fills, ∃ a ∈ q, f.limit_price = a.limit_price := by
  induction q generalizing need with
  | nil => simp [sweepQueue]
  | cons a rest ih =>
    intro f hf
    by_cases hlt : need < availQty a
    · by_cases ha : a.only_full_fill = true
      · rw [sweepQueue_cons_skip hlt ha] at hf
        rcases ih need f hf with ⟨a2, ha2, he⟩
        exact ⟨a2, List.mem_cons_of_mem _ ha2, he⟩
      · rw [Bool.not_eq_true] at ha
        rw [sweepQueue_cons_part hlt ha] at hf
        simp only [List.mem_singleton] at hf
        subst hf
        exact ⟨a, List.mem_cons_self _ _, rfl⟩
    · by_cases hz : need - availQty a = 0
      · rw [sweepQueue_cons_exact hlt hz] at hf
        simp only [List.mem_singleton] at hf
        exact ⟨a, List.mem_cons_self _ _, by rw [hf]⟩
      · rw [sweepQueue_cons_more hlt hz] at hf
        rcases List.mem_cons.mp hf with h1 | h2
        · exact ⟨a, List.mem_cons_self _ _, by rw [h1]⟩
        · rcases ih _ f h2 with ⟨a2, ha2, he⟩
          exact ⟨a2, List.mem_cons_of_mem _ ha2, he⟩

/-- Inter-level price priority: if one matching sweep records any fill at a
price strictly above a resting level `p1`, then every maker at level `p1`
that is not all-or-nothing was itself recorded as (fully consumed) fill —
the lower price is exhausted first, regardless of arrival order or size. -/
theorem sweepLevels_price_priority (need : Nat) (m : PriceMap)
    (hkeys : (m.map Prod.fst).Pairwise (· < ·))
    (hlp : ∀ pq ∈ m, ∀ o ∈ pq.2, o.limit_price = pq.1) :
    ∀ p1 q1, (p1, q1) ∈ m →
      (∃ f ∈ (sweepLevels need m).fills, p1 < f.limit_price) →
      ∀ o ∈ q1, o.only_full_fill = false → o ∈ (sweepLevels need m).fills := by
  induction m generalizing need with
  | nil => intro p1 q1 h; exact absurd h (List.not_mem_nil _)
  | cons pq0 rest ih =>
    obtain ⟨p, q⟩ := pq0
    have hq : ∀ o ∈ q, o.limit_price = p := by
      intro o ho; exact hlp (p, q) (List.mem_cons_self _ _) o ho
    have hrest : ∀ pq ∈ rest, ∀ o ∈ pq.2, o.limit_price = pq.1 :=
      fun pq hpq => hlp pq (List.mem_cons_of_mem _ hpq)
    have hkeys' : (rest.map Prod.fst).Pairwise (· < ·) := by
      simp only [List.map_cons] at hkeys
      exact (List.pairwise_cons.mp hkeys).2
    have hgt : ∀ pq ∈ rest, p < pq.1 := by
      intro pq hpq
      simp only [List.map_cons] at hkeys
      exact (List.pairwise_cons.mp hkeys).1 pq.1 (List.mem_map_of_mem Prod.fst hpq)
    intro p1 q1 hmem hf o ho haon
    by_cases hz : (sweepQueue need q).need = 0
    · rw [sweepLevels_cons_done hz] at hf ⊢
      rcases hf with ⟨f, hfm, hflt⟩
      dsimp only at hfm ⊢
      rcases sweepQueue_fills_limit need q f hfm with ⟨a, haq, he⟩
      rw [he, hq a haq] at hflt
      rcases List.mem_cons.mp hmem with h1 | h2
      · rw [Prod.mk.injEq] at h1
        omega
      · have := hgt (p1, q1) h2
        dsimp only at this
        omega
    · rw [sweepLevels_cons_go hz] at hf ⊢
      dsimp only at hf ⊢
      rcases List.mem_cons.mp hmem with h1 | h2
      · rw [Prod.mk.injEq] at h1
        obtain ⟨hp1, hq1⟩ := h1
        exact List.mem_append_left _
          (sweepQueue_residual_fills need q (Nat.pos_of_ne_zero hz) o (hq1 ▸ ho) haon)
      · rcases hf with ⟨f, hfm, hflt⟩
        rcases List.mem_append.mp hfm with hf1 | hf2
        · exfalso
          rcases sweepQueue_fills_limit need q f hf1 with ⟨a, haq, he⟩
          rw [he, hq a haq] at hflt
          have := hgt (p1, q1) h2
          dsimp only at this
          omega
        · exact List.mem_append_right _
            (ih _ hkeys' hrest p1 q1 h2 ⟨f, hf2, hflt⟩ o ho haon)

/-- The `(owner, nonce)` identity of an order — the caller-facing identity
the spec attaches to submissions. -/
def okey (o : Order) : String × Nat := (o.owner, o.nonce)

/-- Intra-level time priority (FIFO): if one matching sweep fills a maker
`oj`, then every maker `oi` queued before it at the same price level that is
not all-or-nothing was also filled, regardless of its size.  Identities are
compared through `okey`, assumed unique within the queue. -/
theorem sweepQueue_fifo (need : Nat) (l1 : List Order) (oi : Order) (l2 : List Order)
    (oj : Order) (l3 : List Order)
    (hnd : ((l1 ++ (oi :: (l2 ++ (oj :: l3)))).map okey).Nodup)
    (hi : oi.only_full_fill = false)
    (hj : okey oj ∈ (sweepQueue need (l1 ++ (oi :: (l2 ++ (oj :: l3))))).fills.map okey) :
    okey oi ∈ (sweepQueue need (l1 ++ (oi :: (l2 ++ (oj :: l3))))).fills.map okey := by
  induction l1 generalizing need with
  | nil =>
    simp only [List.nil_append] at hj ⊢
    by_cases hlt : need < availQty oi
    · rw [sweepQueue_cons_part hlt hi]
      simp only [List.map_cons, List.map_nil, List.mem_singleton]
      rfl
    · by_cases hz : need - availQty oi = 0
      · rw [sweepQueue_cons_exact hlt hz]
        simp
      · rw [sweepQueue_cons_more hlt hz]
        simp
  | cons h t ih =>
    have hrw : (h :: t) ++ (oi :: (l2 ++ (oj :: l3))) = h :: (t ++ (oi :: (l2 ++ (oj :: l3)))) := by
      simp
    rw [hrw] at hnd hj ⊢
    have hojmem : oj ∈ t ++ (oi :: (l2 ++ (oj :: l3))) := by simp
    rw [List.map_cons] at hnd
    obtain ⟨hhead, htail⟩ := List.nodup_cons.mp hnd
    have hojkey : okey oj ∈ (t ++ (oi :: (l2 ++ (oj :: l3)))).map okey :=
      List.mem_map_of_mem okey hojmem
    have hne : okey oj ≠ okey h := fun he => hhead (he ▸ hojkey)
    by_cases hlt : need < availQty h
    · by_cases ha : h.only_full_fill = true
      · rw [sweepQueue_cons_skip hlt ha] at hj ⊢
        exact ih need htail hj
      · rw [Bool.not_eq_true] at ha
        rw [sweepQueue_cons_part hlt ha] at hj
        simp only [List.map_cons, List.map_nil, List.mem_singleton] at hj
        exact absurd hj hne
    · by_cases hz : need - availQty h = 0
      · rw [sweepQueue_cons_exact hlt hz] at hj
        simp only [List.map_cons, List.map_nil, List.mem_singleton] at hj
        exact absurd hj hne
      · rw [sweepQueue_cons_more hlt hz] at hj ⊢
        simp only [List.map_cons, List.mem_cons] at hj ⊢
        rcases hj with h1 | h2
        · exact absurd h1 hne
        · exact Or.inr (ih _ htail h2)

/-! ### The zero-need step and admission bookkeeping -/

theorem take_bid_zero_need {b : OrderBook} {cursor : Nat} {taker : Order}
    (hg : b.market_bids.get? cursor = some taker)
    (hneed : taker.quantity - taker.filled_quantity = 0)
    (hfills : (sweepLevels 0 b.asks).fills = [])
    (hkeys : (b.asks.map Prod.fst).Pairwise (· < ·)) :
    b.take_bid_order cursor =
      ({ b with asks := pruneEmpty (sweepLevels 0 b.asks).levels (sweepLevels 0 b.asks).marks },
        none) ∧
      (pruneEmpty (sweepLevels 0 b.asks).levels (sweepLevels 0 b.asks).marks = b.asks ∨
        ∃ p rest, b.asks = (p, []) :: rest ∧
          pruneEmpty (sweepLevels 0 b.asks).levels (sweepLevels 0 b.asks).marks = rest) := by
  have hz : (sweepLevels 0 b.asks).need = 0 := Nat.le_zero.mp (sweepLevels_need_le 0 b.asks)
  constructor
  · rw [take_bid_order_of_some hg, hneed]
    simp only [hz, Nat.lt_irrefl, if_false, hfills, List.length_nil, if_neg (Nat.lt_irrefl 0)]
  · cases hm : b.asks with
    | nil =>
      left
      simp [sweepLevels, pruneEmpty]
    | cons pq rest =>
      obtain ⟨p, q⟩ := pq
      have hzq : (sweepQueue 0 q).need = 0 := Nat.le_zero.mp (sweepQueue_need_le 0 q)
      have hdone := @sweepLevels_cons_done 0 p q rest hzq
      rw [hdone]
      dsimp only
      have hfq : (sweepQueue 0 q).fills = [] := by
        rw [hm, hdone] at hfills
        exact hfills
      clear hfills
      rcases sweepQueue_fills_nil 0 q hfq with ⟨hkept, _, hfe⟩
      have hnotin : ∀ pq2 ∈ rest, pq2.1 ≠ p := by
        intro pq2 hpq2
        rw [hm] at hkeys
        simp only [List.map_cons] at hkeys
        have := (List.pairwise_cons.mp hkeys).1 pq2.1 (List.mem_map_of_mem Prod.fst hpq2)
        omega
      by_cases hqe : q = []
      · subst hqe
        right
        refine ⟨p, rest, rfl, ?_⟩
        have hfetrue : (sweepQueue 0 ([] : List Order)).foundEmpty = true := hfe.mpr rfl
        rw [hkept, hfetrue, if_pos rfl]
        rw [pruneEmpty_cons_of_mem (List.mem_singleton.mpr rfl)]
        exact pruneEmpty_of_disjoint (fun pq2 hpq2 => by simpa using hnotin pq2 hpq2)
      · left
        have hfefalse : (sweepQueue 0 q).foundEmpty = false := by
          rcases Bool.eq_false_or_eq_true (sweepQueue 0 q).foundEmpty with h1 | h1
          · exact absurd (hfe.mp h1) hqe
          · exact h1
        rw [hkept, hfefalse]
        simp only [Bool.false_eq_true, if_false]
        rw [pruneEmpty_nil_marks]

theorem entryPush_perm (m : PriceMap) (k : Nat) (o : Order) :
    List.Perm (ordersOfMap (entryPush m k o)) (o :: ordersOfMap m) := by
  induction m with
  | nil => simp [entryPush, ordersOfMap]
  | cons pq rest ih =>
    obtain ⟨p, q⟩ := pq
    simp only [entryPush]
    split
    · simp [ordersOfMap]
    · split
      · simp only [ordersOfMap, List.map_cons, List.flatten_cons]
        have h2 : (q ++ [o]) ++ (rest.map Prod.snd).flatten =
            q ++ (o :: (rest.map Prod.snd).flatten) := by simp
        rw [h2]
        exact List.perm_middle
      · simp only [ordersOfMap, List.map_cons, List.flatten_cons] at ih ⊢
        exact (ih.append_left q).trans List.perm_middle

/-- The taker's remaining need as stored in the market queue at a cursor
(`0` when no order rests there). -/
def remainingNeedAt (mb : List Order) (cursor : Nat) : Nat :=
  match mb.get? cursor with
  | some t => t.quantity - t.filled_quantity
  | none => 0

theorem conservation_of_not_aon (b : OrderBook) (cursor : Nat) (taker : Order)
    (hg : b.market_bids.get? cursor = some taker)
    (haon : taker.only_full_fill = false)
    (hkeys : (b.asks.map Prod.fst).Pairwise (· < ·))
    (hinv : ∀ pq ∈ b.asks, ∀ o ∈ pq.2, o.filled_quantity ≤ o.quantity) :
    sumAvailLevels b.asks +
      (if (b.take_bid_order cursor).1.market_bids.length < b.market_bids.length then 0
        else remainingNeedAt (b.take_bid_order cursor).1.market_bids cursor) =
      sumAvailLevels (b.take_bid_order cursor).1.asks +
        (taker.quantity - taker.filled_quantity) := by
  have hlt : cursor < b.market_bids.length := cursor_lt_of_get?_eq_some hg
  have hcons := sweep_prune_conserve (taker.quantity - taker.filled_quantity) b.asks hkeys hinv
  have hnle := sweepLevels_need_le (taker.quantity - taker.filled_quantity) b.asks
  rw [take_bid_order_of_some hg]
  simp only [haon, Bool.false_eq_true, if_false]
  split
  · rename_i hpos
    split <;>
    · simp only [List.length_set, Nat.lt_irrefl, if_false, remainingNeedAt]
      rw [List.get?_eq_getElem?, List.getElem?_set_eq_of_lt _ (by simpa using hlt)]
      simp only []
      have : taker.quantity -
          (taker.quantity - (sweepLevels (taker.quantity - taker.filled_quantity) b.asks).need) =
          (sweepLevels (taker.quantity - taker.filled_quantity) b.asks).need := by
        omega
      rw [this]
      omega
  · rename_i hz
    split
    · rename_i hfl
      have hlen : ((b.market_bids.eraseIdx cursor).length) + 1 = b.market_bids.length :=
        List.length_eraseIdx_add_one hlt
      simp only []
      rw [if_pos (by omega)]
      omega
    · rename_i hfl
      have hfe : (sweepLevels (taker.quantity - taker.filled_quantity) b.asks).fills = [] := by
        rcases List.eq_nil_or_concat (sweepLevels (taker.quantity - taker.filled_quantity)
          b.asks).fills with h1 | ⟨l2, a2, h1⟩
        · exact h1
        · exfalso
          rw [h1] at hfl
          simp at hfl
      have hneed0 := (sweepLevels_fills_nil _ _ hfe).1
      simp only [Nat.lt_irrefl, if_false, remainingNeedAt, hg]
      omega

theorem take_bid_order_compute {b : OrderBook} {cursor : Nat} (fuel : Nat)
    {out : OrderBook × Option (Order × List Order)}
    (hlt : b.market_bids.length - cursor < fuel)
    (hev : takeBidOrderFuel fuel b cursor = some out) :
    b.take_bid_order cursor = out := by
  have h := takeBidOrderFuel_spec fuel b cursor hlt
  rw [hev] at h
  exact (Option.some.inj h).symm

/-! ### Concrete books used to settle the claims -/

def exC2Stop : Order := ⟨"alice", 7, 5, 0, U256MAX, 50, 0, Side.Bid, false⟩

def exC3Ask : Order := ⟨"maker3", 1, 10, 0, 101, U256MAX, 0, Side.Ask, false⟩

def exC3Bid : Order := ⟨"taker3", 2, 10, 0, U256MAX, 0, 0, Side.Bid, false⟩

def exC3Book : OrderBook :=
  (((OrderBook.from_initial_price 100).add_order exC3Ask).1.add_order exC3Bid).1

def exC5Ask : Order := ⟨"maker5", 1, 5, 0, 100, U256MAX, 0, Side.Ask, false⟩

def exC5Taker : Order := ⟨"taker5", 2, 0, 0, U256MAX, 0, 0, Side.Bid, false⟩

def exC5Book : OrderBook := ⟨[], [(100, [exC5Ask])], [], [], [exC5Taker], [], 100⟩

/-- C2: on `Side::Bid` a Stop order (`limit_price = U256::MAX`,
`stop_price = 50`) is classified as Stop, yet `add_order` files it in
`stop_bids` under the key `U256::MAX` — its `limit_price` sentinel — and not
under its trigger price `50`, because the Stop/StopLimit arm of `add_order`
uses `order.limit_price` as the map key. -/
theorem c2_stop_keyed_by_limit_price :
    exC2Stop.order_type = some OrderType.Stop ∧
    ((OrderBook.from_initial_price 100).add_order exC2Stop).1.stop_bids =
      [(U256MAX, [exC2Stop])] ∧
    ((OrderBook.from_initial_price 100).add_order exC2Stop).1.stop_bids.map Prod.fst =
      [U256MAX] ∧ exC2Stop.stop_price = 50 ∧ U256MAX ≠ 50 := by
  refine ⟨by decide, by decide, by decide, rfl, by decide⟩

/-- C3 counterexample: in the §8 scenario (ask 10@101, market bid 10), after
one matching step the price level 101 is still a key of `asks` (holding an
empty queue) — the claim that the level is absent from the map is false. -/
theorem c3_counterexample_level_remains :
    ((exC3Book.take_bid_order 0).1).asks.map Prod.fst = [101] := by
  have hstep : exC3Book.take_bid_order 0 =
      (⟨[], [(101, [])], [], [], [], [], 100⟩, some (exC3Bid, [exC3Ask])) :=
    take_bid_order_compute 2 (by decide) (by decide)
  rw [hstep]
  rfl

/-- C3 amended: the scenario yields exactly one trade that fully consumes
both orders (the taker leaves `market_bids`, the maker leaves its queue), but
the price level 101 remains in `asks` as an empty queue — it is only pruned
by a later sweep that probes it empty at cursor 0, not by this step. -/
theorem c3_scenario_one_trade_level_empty :
    ((OrderBook.from_initial_price 100).add_order exC3Ask).2 = Except.ok () ∧
    (((OrderBook.from_initial_price 100).add_order exC3Ask).1.add_order exC3Bid).2 =
      Except.ok () ∧
    exC3Book.take_bid_order 0 =
      (⟨[], [(101, [])], [], [], [], [], 100⟩, some (exC3Bid, [exC3Ask])) := by
  refine ⟨rfl, rfl, take_bid_order_compute 2 (by decide) (by decide)⟩

/-- C5 counterexample: a taker with zero remaining need (quantity 0) matched
against a resting non-all-or-nothing ask is not a no-op: the step returns
`Some` with a recorded (zero-quantity) trade and removes the taker from the
market queue. -/
theorem c5_counterexample_zero_need_trades :
    (exC5Book.take_bid_order 0).2 = some (exC5Taker, [exC5Ask]) ∧
    (exC5Book.take_bid_order 0).1.market_bids = [] := by
  have hstep : exC5Book.take_bid_order 0 =
      (⟨[], [(100, [exC5Ask])], [], [], [], [], 100⟩, some (exC5Taker, [exC5Ask])) :=
    take_bid_order_compute 2 (by decide) (by decide)
  rw [hstep]
  exact ⟨rfl, rfl⟩

/-- C9: the matching step terminates: a cursor at or past the end of the
market queue returns `None` with the book untouched, and the whole recursive
retry is computed by a fuelled recursion with any fuel exceeding the number
of queue positions at or after the cursor — the retry is bounded by the
market-queue length. -/
theorem c9_termination (b : OrderBook) (cursor : Nat) :
    (b.market_bids.length ≤ cursor → b.take_bid_order cursor = (b, none)) ∧
    (∀ fuel, b.market_bids.length - cursor < fuel →
      takeBidOrderFuel fuel b cursor = some (b.take_bid_order cursor)) := by
  constructor
  · intro h
    exact take_bid_order_of_none (List.get?_eq_none.mpr h)
  · intro fuel h
    exact takeBidOrderFuel_spec fuel b cursor h

/-- C9 witness: on the empty book at cursor 5 the step returns `None`
unchanged, and fuel 1 suffices. -/
theorem c9_termination_witness :
    (OrderBook.from_initial_price 100).market_bids.length ≤ 5 ∧
    (OrderBook.from_initial_price 100).take_bid_order 5 =
      (OrderBook.from_initial_price 100, none) ∧
    takeBidOrderFuel 1 (OrderBook.from_initial_price 100) 5 =
      some ((OrderBook.from_initial_price 100).take_bid_order 5) :=
  ⟨by decide, (c9_termination (OrderBook.from_initial_price 100) 5).1 (by decide),
    (c9_termination (OrderBook.from_initial_price 100) 5).2 1 (by decide)⟩

/-- C10: one bid-side matching step can mutate only `asks` and
`market_bids`: the `bids`, `stop_bids`, `stop_asks`, `market_asks`
containers and `last_price_level` of the resulting book are those of the
input book, for every book state and cursor (in particular matching never
updates `last_price_level`). -/
theorem c10_frame (b : OrderBook) (cursor : Nat) :
    (b.take_bid_order cursor).1.bids = b.bids ∧
    (b.take_bid_order cursor).1.stop_bids = b.stop_bids ∧
    (b.take_bid_order cursor).1.stop_asks = b.stop_asks ∧
    (b.take_bid_order cursor).1.market_asks = b.market_asks ∧
    (b.take_bid_order cursor).1.last_price_level = b.last_price_level := by
  have h := takeBidOrderFuel_spec (b.market_bids.length - cursor + 1) b cursor (by omega)
  have h2 := takeBidOrderFuel_frame _ _ _ _ _
    (h.trans (congrArg some (@Prod.mk.eta _ _ (b.take_bid_order cursor)).symm))
  exact h2

def exC1Ask : Order := ⟨"maker1", 1, 6, 0, 100, U256MAX, 0, Side.Ask, false⟩

def exC1Taker : Order := ⟨"taker1", 2, 10, 0, U256MAX, 0, 0, Side.Bid, true⟩

def exC1Book : OrderBook := ⟨[], [(100, [exC1Ask])], [], [], [exC1Taker], [], 100⟩

/-- C1 counterexample: for an all-or-nothing taker needing 10 against a lone
resting ask of 6, the step consumes the ask (6 units leave the book and the
level is pruned), recurses to the next cursor and returns `None`, while the
taker's stored need is still 10: consumed quantity plus need after the call
is 16 ≠ 10, so quantity conservation fails on the retry path. -/
theorem c1_counterexample_aon_retry :
    ¬ (sumAvailLevels exC1Book.asks +
        (if (exC1Book.take_bid_order 0).1.market_bids.length < exC1Book.market_bids.length
          then 0 else remainingNeedAt (exC1Book.take_bid_order 0).1.market_bids 0) =
      sumAvailLevels (exC1Book.take_bid_order 0).1.asks +
        remainingNeedAt exC1Book.market_bids 0) := by
  have hstep : exC1Book.take_bid_order 0 =
      (⟨[], [], [], [], [exC1Taker], [], 100⟩, none) :=
    take_bid_order_compute 2 (by decide) (by decide)
  rw [hstep]
  decide

/-- C1 (amended): quantity is conserved by one matching step whenever the
taker at the cursor is not all-or-nothing: the maker availability consumed
from `asks` plus the taker's remaining need after the call equals its need
before the call.  (On the all-or-nothing retry path, fills already applied
to makers are not rolled back, so consumption can exceed the taker's need
decrease — see the counterexample.) -/
theorem c1_conservation_not_aon (b : OrderBook) (cursor : Nat) (taker : Order)
    (hg : b.market_bids.get? cursor = some taker)
    (haon : taker.only_full_fill = false)
    (hkeys : (b.asks.map Prod.fst).Pairwise (· < ·))
    (hinv : ∀ pq ∈ b.asks, ∀ o ∈ pq.2, o.filled_quantity ≤ o.quantity) :
    sumAvailLevels b.asks +
      (if (b.take_bid_order cursor).1.market_bids.length < b.market_bids.length then 0
        else remainingNeedAt (b.take_bid_order cursor).1.market_bids cursor) =
      sumAvailLevels (b.take_bid_order cursor).1.asks +
        (taker.quantity - taker.filled_quantity) :=
  conservation_of_not_aon b cursor taker hg haon hkeys hinv

def wC1Ask : Order := ⟨"makerw1", 1, 4, 0, 100, U256MAX, 0, Side.Ask, false⟩

def wC1Taker : Order := ⟨"takerw1", 2, 10, 0, U256MAX, 0, 0, Side.Bid, false⟩

def wC1Book : OrderBook := ⟨[], [(100, [wC1Ask])], [], [], [wC1Taker], [], 100⟩

/-- C1 witness: the amended conservation theorem applied to a concrete
non-all-or-nothing taker. -/
theorem c1_conservation_not_aon_witness :
    wC1Book.market_bids.get? 0 = some wC1Taker ∧ wC1Taker.only_full_fill = false ∧
    (wC1Book.asks.map Prod.fst).Pairwise (· < ·) ∧
    sumAvailLevels wC1Book.asks +
      (if (wC1Book.take_bid_order 0).1.market_bids.length < wC1Book.market_bids.length
        then 0 else remainingNeedAt (wC1Book.take_bid_order 0).1.market_bids 0) =
      sumAvailLevels (wC1Book.take_bid_order 0).1.asks +
        (wC1Taker.quantity - wC1Taker.filled_quantity) :=
  ⟨rfl, rfl, by decide,
    c1_conservation_not_aon wC1Book 0 wC1Taker rfl rfl (by decide) (by decide)⟩

/-- C5 (amended): if the taker's remaining need is zero at the start of the
step and the sweep records no trade (as the spec's resolution rule is
phrased), the step returns `None`, the taker and every queue except `asks`
are untouched, and `asks` changes at most by pruning a leading
already-empty price level.  (Without the no-trade proviso the claim is
false: a resting non-all-or-nothing ask yields a recorded zero-quantity
trade and the taker is removed — see the counterexample.) -/
theorem c5_zero_need_no_trade_noop (b : OrderBook) (cursor : Nat) (taker : Order)
    (hg : b.market_bids.get? cursor = some taker)
    (hneed : taker.quantity - taker.filled_quantity = 0)
    (hfills : (sweepLevels 0 b.asks).fills = [])
    (hkeys : (b.asks.map Prod.fst).Pairwise (· < ·)) :
    (b.take_bid_order cursor).2 = none ∧
    (b.take_bid_order cursor).1.market_bids = b.market_bids ∧
    (b.take_bid_order cursor).1.bids = b.bids ∧
    (b.take_bid_order cursor).1.stop_bids = b.stop_bids ∧
    (b.take_bid_order cursor).1.stop_asks = b.stop_asks ∧
    (b.take_bid_order cursor).1.market_asks = b.market_asks ∧
    (b.take_bid_order cursor).1.last_price_level = b.last_price_level ∧
    ((b.take_bid_order cursor).1.asks = b.asks ∨
      ∃ p rest, b.asks = (p, []) :: rest ∧ (b.take_bid_order cursor).1.asks = rest) := by
  obtain ⟨h1, h2⟩ := take_bid_zero_need hg hneed hfills hkeys
  rw [h1]
  exact ⟨rfl, rfl, rfl, rfl, rfl, rfl, rfl, h2⟩

def wC5Ask : Order := ⟨"makerw5", 1, 5, 0, 100, U256MAX, 0, Side.Ask, true⟩

def wC5Taker : Order := ⟨"takerw5", 2, 0, 0, U256MAX, 0, 0, Side.Bid, false⟩

def wC5Book : OrderBook := ⟨[], [(100, [wC5Ask])], [], [], [wC5Taker], [], 100⟩

/-- C5 witness: a zero-quantity taker against a lone all-or-nothing ask
(whose sweep records no trade) is a no-op. -/
theorem c5_zero_need_no_trade_noop_witness :
    wC5Book.market_bids.get? 0 = some wC5Taker ∧
    wC5Taker.quantity - wC5Taker.filled_quantity = 0 ∧
    (sweepLevels 0 wC5Book.asks).fills = [] ∧
    (wC5Book.take_bid_order 0).2 = none ∧
    (wC5Book.take_bid_order 0).1.market_bids = wC5Book.market_bids ∧
    ((wC5Book.take_bid_order 0).1.asks = wC5Book.asks ∨
      ∃ p rest, wC5Book.asks = (p, []) :: rest ∧ (wC5Book.take_bid_order 0).1.asks = rest) := by
  have h := c5_zero_need_no_trade_noop wC5Book 0 wC5Taker rfl rfl (by decide) (by decide)
  exact ⟨rfl, rfl, by decide, h.1, h.2.1, h.2.2.2.2.2.2.2⟩

/-- C4: an all-or-nothing resting maker is never left partially filled by a
single matching step: every all-or-nothing order found in `asks` after a
step already sat in `asks` before it, unmutated (the sweep skips such makers
when their availability exceeds the taker's need, and otherwise removes them
whole); hence if no all-or-nothing maker was partially filled before the
step, none is after it. -/
theorem c4_aon_makers_never_left_incomplete (b : OrderBook) (cursor : Nat) :
    (∀ o ∈ ordersOfMap (b.take_bid_order cursor).1.asks, o.only_full_fill = true →
      o ∈ ordersOfMap b.asks) ∧
    ((∀ o ∈ ordersOfMap b.asks, o.only_full_fill = true →
        ¬(0 < o.filled_quantity ∧ o.filled_quantity < o.quantity)) →
      ∀ o ∈ ordersOfMap (b.take_bid_order cursor).1.asks, o.only_full_fill = true →
        ¬(0 < o.filled_quantity ∧ o.filled_quantity < o.quantity)) := by
  have hspec := takeBidOrderFuel_spec (b.market_bids.length - cursor + 1) b cursor (by omega)
  have heq := hspec.trans (congrArg some (@Prod.mk.eta _ _ (b.take_bid_order cursor)).symm)
  have hmem := takeBidOrderFuel_asks_aon _ _ _ _ _ heq
  exact ⟨fun o ho haon => hmem o haon ho,
    fun hclean o ho haon => hclean o (hmem o haon ho) haon⟩

def wC4Ask : Order := ⟨"makerw4", 1, 5, 0, 100, U256MAX, 0, Side.Ask, true⟩

def wC4Taker : Order := ⟨"takerw4", 2, 3, 0, U256MAX, 0, 0, Side.Bid, false⟩

def wC4Book : OrderBook := ⟨[], [(100, [wC4Ask])], [], [], [wC4Taker], [], 100⟩

/-- C4 witness: a taker needing 3 against a lone all-or-nothing ask of 5 —
the ask is skipped, and no all-or-nothing maker ends up partially filled. -/
theorem c4_aon_makers_never_left_incomplete_witness :
    (∀ o ∈ ordersOfMap wC4Book.asks, o.only_full_fill = true →
      ¬(0 < o.filled_quantity ∧ o.filled_quantity < o.quantity)) ∧
    (∀ o ∈ ordersOfMap (wC4Book.take_bid_order 0).1.asks, o.only_full_fill = true →
      ¬(0 < o.filled_quantity ∧ o.filled_quantity < o.quantity)) :=
  ⟨by decide, (c4_aon_makers_never_left_incomplete wC4Book 0).2 (by decide)⟩

def exC6AonAsk : Order := ⟨"c6aon", 1, 5, 0, 100, U256MAX, 0, Side.Ask, true⟩

def exC6Ask101 : Order := ⟨"c6b", 2, 3, 0, 101, U256MAX, 0, Side.Ask, false⟩

def exC6Ask100b : Order := ⟨"c6c", 3, 3, 0, 100, U256MAX, 0, Side.Ask, false⟩

/-- C6 counterexample: price-time priority does not hold for all-or-nothing
makers.  Inter-level: with a resting all-or-nothing ask of 5 at price 100
and a non-all-or-nothing ask of 3 at price 101, a sweep needing 3 skips the
lower-priced ask (its availability exceeds the need) and fully fills the
higher-priced one, leaving the better-priced ask resting untouched.
Intra-level: with the same two asks queued at one price level in admission
order (all-or-nothing first), the later-admitted ask fills while the
earlier one is skipped. -/
theorem c6_counterexample_aon_skipped :
    (sweepLevels 3 [(100, [exC6AonAsk]), (101, [exC6Ask101])]).fills = [exC6Ask101] ∧
    (sweepLevels 3 [(100, [exC6AonAsk]), (101, [exC6Ask101])]).levels =
      [(100, [exC6AonAsk]), (101, [])] ∧
    (sweepQueue 3 [exC6AonAsk, exC6Ask100b]).fills = [exC6Ask100b] ∧
    (sweepQueue 3 [exC6AonAsk, exC6Ask100b]).kept = [exC6AonAsk] := by
  refine ⟨by decide, by decide, by decide, by decide⟩

/-- C6 (amended): the bid-side sweep obeys strict price-time priority among
makers that are not all-or-nothing (an all-or-nothing maker whose
availability exceeds the taker's current need is skipped out of turn — see
the counterexample).
(i) Inter-level: if the sweep records any fill above a resting level `p1`,
every non-all-or-nothing maker at `p1` was itself fully consumed first,
regardless of arrival order or size.  (ii) Intra-level: if a maker `oj` is
filled, every non-all-or-nothing maker queued before it at the same level is
filled too, regardless of size (orders identified by their `(owner, nonce)`
key, assumed unique in the queue). -/
theorem c6_price_time_priority :
    (∀ (need : Nat) (m : PriceMap),
      (m.map Prod.fst).Pairwise (· < ·) →
      (∀ pq ∈ m, ∀ o ∈ pq.2, o.limit_price = pq.1) →
      ∀ p1 q1, (p1, q1) ∈ m →
        (∃ f ∈ (sweepLevels need m).fills, p1 < f.limit_price) →
        ∀ o ∈ q1, o.only_full_fill = false → o ∈ (sweepLevels need m).fills) ∧
    (∀ (need : Nat) (l1 : List Order) (oi : Order) (l2 : List Order) (oj : Order)
        (l3 : List Order),
      ((l1 ++ (oi :: (l2 ++ (oj :: l3)))).map okey).Nodup →
      oi.only_full_fill = false →
      okey oj ∈ (sweepQueue need (l1 ++ (oi :: (l2 ++ (oj :: l3))))).fills.map okey →
      okey oi ∈ (sweepQueue need (l1 ++ (oi :: (l2 ++ (oj :: l3))))).fills.map okey) :=
  ⟨fun need m hkeys hlp => sweepLevels_price_priority need m hkeys hlp,
   fun need l1 oi l2 oj l3 hnd hi hj => sweepQueue_fifo need l1 oi l2 oj l3 hnd hi hj⟩

def wC6A : Order := ⟨"w6a", 1, 4, 0, 100, U256MAX, 0, Side.Ask, false⟩

def wC6B : Order := ⟨"w6b", 2, 4, 0, 101, U256MAX, 0, Side.Ask, false⟩

/-- C6 witness: with asks 4@100 (order A) and 4@101 (order B) against need 6,
a fill is recorded at 101, and indeed A was fully consumed; and in the
single-queue instance [A, B], B being filled forces A to be filled. -/
theorem c6_price_time_priority_witness :
    wC6A ∈ (sweepLevels 6 [(100, [wC6A]), (101, [wC6B])]).fills ∧
    okey wC6A ∈ (sweepQueue 6 [wC6A, wC6B]).fills.map okey := by
  constructor
  · exact c6_price_time_priority.1 6 [(100, [wC6A]), (101, [wC6B])] (by decide) (by decide)
      100 [wC6A] (by decide) (by decide) wC6A (by decide) rfl
  · exact c6_price_time_priority.2 6 [] wC6A [] wC6B [] (by decide) rfl (by decide)

theorem entryPush_fill_le {m : PriceMap} {k : Nat} {o : Order}
    (hm : ∀ o2 ∈ ordersOfMap m, o2.filled_quantity ≤ o2.quantity)
    (ho : o.filled_quantity ≤ o.quantity) :
    ∀ o2 ∈ ordersOfMap (entryPush m k o), o2.filled_quantity ≤ o2.quantity := by
  intro o2 ho2
  rcases List.mem_cons.mp ((entryPush_perm m k o).mem_iff.mp ho2) with h1 | h2
  · exact h1 ▸ ho
  · exact hm o2 h2

/-- C7: assuming every order already held satisfies
`filled_quantity ≤ quantity` (the lower bound `0 ≤ filled_quantity` is
inherent to the unsigned domain), both admission of an order satisfying it
and one matching step preserve the invariant for every order in every
container of the book. -/
theorem c7_filled_le_quantity :
    (∀ (b : OrderBook) (o : Order), bookFillLe b → o.filled_quantity ≤ o.quantity →
      bookFillLe (b.add_order o).1) ∧
    (∀ (b : OrderBook) (cursor : Nat), bookFillLe b →
      bookFillLe (b.take_bid_order cursor).1) := by
  constructor
  · intro b o hb ho
    obtain ⟨i1, i2, i3, i4, i5, i6⟩ := hb
    cases hot : o.order_type with
    | none =>
      simp only [OrderBook.add_order, hot]
      exact ⟨i1, i2, i3, i4, i5, i6⟩
    | some ot =>
      cases ot <;> cases hside : o.side <;>
        simp only [OrderBook.add_order, hot, hside] <;>
        refine ⟨?_, ?_, ?_, ?_, ?_, ?_⟩ <;>
        first
          | exact i1
          | exact i2
          | exact i3
          | exact i4
          | exact i5
          | exact i6
          | exact entryPush_fill_le i1 ho
          | exact entryPush_fill_le i2 ho
          | exact entryPush_fill_le i3 ho
          | exact entryPush_fill_le i4 ho
          | (intro o2 ho2
             rcases List.mem_append.mp ho2 with h1 | h1
             · first
                 | exact i5 o2 h1
                 | exact i6 o2 h1
             · rw [List.mem_singleton.mp h1]
               exact ho)
  · intro b cursor hb
    have hspec := takeBidOrderFuel_spec (b.market_bids.length - cursor + 1) b cursor (by omega)
    have heq := hspec.trans (congrArg some (@Prod.mk.eta _ _ (b.take_bid_order cursor)).symm)
    exact takeBidOrderFuel_inv _ _ _ _ _ heq hb

def wC7Order : Order := ⟨"w7", 3, 8, 2, 99, 0, 0, Side.Bid, false⟩

def wC7Book : OrderBook := ⟨[], [(100, [wC1Ask])], [], [], [wC1Taker], [], 100⟩

/-- C7 witness: the invariant-preservation theorem applied to a concrete
book, admission and matching step. -/
theorem c7_filled_le_quantity_witness :
    bookFillLe wC7Book ∧ wC7Order.filled_quantity ≤ wC7Order.quantity ∧
    bookFillLe (wC7Book.add_order wC7Order).1 ∧
    bookFillLe (wC7Book.take_bid_order 0).1 :=
  ⟨by decide, by decide,
    c7_filled_le_quantity.1 wC7Book wC7Order (by decide) (by decide),
    c7_filled_le_quantity.2 wC7Book 0 (by decide)⟩

/-- The six containers of the book, in the order `bids`, `asks`,
`stop_bids`, `stop_asks`, `market_bids`, `market_asks`. -/
def containerList (b : OrderBook) : List (List Order) :=
  [ordersOfMap b.bids, ordersOfMap b.asks, ordersOfMap b.stop_bids, ordersOfMap b.stop_asks,
    b.market_bids, b.market_asks]

def containerGet (b : OrderBook) (i : Fin 6) : List Order :=
  (containerList b).get ⟨i.1, i.2⟩

/-- C8: admission errors with `InvalidOrder` exactly when classification
fails, the book is then unchanged, and an admitted order lands in exactly
one of the six containers: that container's occurrence count of the order
grows by one while every other container is untouched.  (`order_type` is a
pure function of the order, so classification is deterministic by
construction.) -/
theorem c8_admission_routes_once (b : OrderBook) (o : Order) :
    ((b.add_order o).2 = Except.error "Invalid order type" ↔ o.order_type = none) ∧
    (o.order_type = none → (b.add_order o).1 = b) ∧
    ((o.order_type).isSome →
      ∃ i : Fin 6, (containerGet (b.add_order o).1 i).count o =
          (containerGet b i).count o + 1 ∧
        ∀ j : Fin 6, j ≠ i → containerGet (b.add_order o).1 j = containerGet b j) := by
  cases hot : o.order_type with
  | none =>
    simp only [OrderBook.add_order, hot]
    exact ⟨by simp, by simp, by simp⟩
  | some ot =>
    cases ot <;> cases hside : o.side <;>
      simp only [OrderBook.add_order, hot, hside] <;>
      refine ⟨by simp, by simp, fun _ => ?_⟩
    · refine ⟨⟨4, by omega⟩, ?_, ?_⟩
      · show (b.market_bids ++ [o]).count o = (b.market_bids).count o + 1
        simp [List.count_append]
      · intro j hj
        fin_cases j <;> first | rfl | exact absurd rfl hj
    · refine ⟨⟨5, by omega⟩, ?_, ?_⟩
      · show (b.market_asks ++ [o]).count o = (b.market_asks).count o + 1
        simp [List.count_append]
      · intro j hj
        fin_cases j <;> first | rfl | exact absurd rfl hj
    · refine ⟨⟨0, by omega⟩, ?_, ?_⟩
      · have hperm := entryPush_perm b.bids o.limit_price o
        simp only [containerGet, containerList, List.get]
        rw [hperm.count_eq, List.count_cons_self]
      · intro j hj
        fin_cases j <;> first | rfl | exact absurd rfl hj
    · refine ⟨⟨1, by omega⟩, ?_, ?_⟩
      · have hperm := entryPush_perm b.asks o.limit_price o
        simp only [containerGet, containerList, List.get]
        rw [hperm.count_eq, List.count_cons_self]
      · intro j hj
        fin_cases j <;> first | rfl | exact absurd rfl hj
    · refine ⟨⟨2, by omega⟩, ?_, ?_⟩
      · have hperm := entryPush_perm b.stop_bids o.limit_price o
        simp only [containerGet, containerList, List.get]
        rw [hperm.count_eq, List.count_cons_self]
      · intro j hj
        fin_cases j <;> first | rfl | exact absurd rfl hj
    · refine ⟨⟨3, by omega⟩, ?_, ?_⟩
      · have hperm := entryPush_perm b.stop_asks o.limit_price o
        simp only [containerGet, containerList, List.get]
        rw [hperm.count_eq, List.count_cons_self]
      · intro j hj
        fin_cases j <;> first | rfl | exact absurd rfl hj
    · refine ⟨⟨2, by omega⟩, ?_, ?_⟩
      · have hperm := entryPush_perm b.stop_bids o.limit_price o
        simp only [containerGet, containerList, List.get]
        rw [hperm.count_eq, List.count_cons_self]
      · intro j hj
        fin_cases j <;> first | rfl | exact absurd rfl hj
    · refine ⟨⟨3, by omega⟩, ?_, ?_⟩
      · have hperm := entryPush_perm b.stop_asks o.limit_price o
        simp only [containerGet, containerList, List.get]
        rw [hperm.count_eq, List.count_cons_self]
      · intro j hj
        fin_cases j <;> first | rfl | exact absurd rfl hj

def wC8Order : Order := ⟨"w8", 4, 9, 0, 102, U256MAX, 0, Side.Ask, false⟩

/-- C8 witness: admitting a concrete limit ask succeeds and stores it in
exactly one container. -/
theorem c8_admission_routes_once_witness :
    (wC8Order.order_type).isSome ∧
    (((OrderBook.from_initial_price 100).add_order wC8Order).2 =
        Except.error "Invalid order type" ↔ wC8Order.order_type = none) ∧
    ∃ i : Fin 6,
      (containerGet ((OrderBook.from_initial_price 100).add_order wC8Order).1 i).count
          wC8Order =
        (containerGet (OrderBook.from_initial_price 100) i).count wC8Order + 1 ∧
      ∀ j : Fin 6, j ≠ i →
        containerGet ((OrderBook.from_initial_price 100).add_order wC8Order).1 j =
          containerGet (OrderBook.from_initial_price 100) j :=
  ⟨by decide, (c8_admission_routes_once (OrderBook.from_initial_price 100) wC8Order).1,
    (c8_admission_routes_once (OrderBook.from_initial_price 100) wC8Order).2.2 (by decide)⟩
